import Mathlib

/-!
# CommitAIFlow — verification of the diff engine and the message sanitizer

Shallow embedding of the two algorithmic components of the CommitAIFlow
repository:

* the unified-diff parser and renderer of `media/gitGraphView.js`
  (`parseUnifiedDiff`, `renderDiff`, `createRow`, `addCollapsed`), and
* the model-output sanitization pipeline of `src/commitMessage.ts`
  (`sanitizeCommitMessage` and its helper stages).

JavaScript strings are modelled as Lean `String`s (lists of characters);
JS numbers used here are non-negative line counters, modelled as `Nat`;
the JS idiom of storing either a number or the empty string `''` in the
`oldNo`/`newNo` fields is modelled as `Option Nat` (`none` for `''`).
-/

namespace CommitAIFlow

/-- Characters matched by JavaScript's `\s` class (used by `trim`,
`trimStart` and the `/\s+$/u` replacement in the sanitizer). -/
def isWsChar (c : Char) : Bool :=
  let n := c.toNat
  n == 0x20 || (0x9 ≤ n && n ≤ 0xD) ||
  n == 0xA0 || n == 0x1680 ||
  (0x2000 ≤ n && n ≤ 0x200A) ||
  n == 0x2028 || n == 0x2029 || n == 0x202F || n == 0x205F ||
  n == 0x3000 || n == 0xFEFF

/-- Prepend a character to the first chunk of a split result
(used to build the splitters below). -/
def consHead (c : Char) : List (List Char) → List (List Char)
  | [] => [[c]]
  | l :: ls => (c :: l) :: ls

/-- JS `text.split('\n')`.  On the empty list it yields `[[]]`, exactly as
`''.split('\n')` yields `['']`. -/
def splitNlL : List Char → List (List Char)
  | [] => [[]]
  | '\n' :: cs => [] :: splitNlL cs
  | c :: cs => consHead c (splitNlL cs)

/-- JS `value.split(/\r?\n/)`: a `\r\n` pair or a lone `\n` separates lines;
a lone `\r` does not. -/
def splitRNL : List Char → List (List Char)
  | [] => [[]]
  | '\n' :: cs => [] :: splitRNL cs
  | '\r' :: '\n' :: cs => [] :: splitRNL cs
  | c :: cs => consHead c (splitRNL cs)

/-- JS `lines.join('\n')`. -/
def joinNl : List (List Char) → List Char
  | [] => []
  | [l] => l
  | l :: ls => l ++ '\n' :: joinNl ls

/-- JS `s.split('\n')` at the `String` level. -/
def splitNl (s : String) : List String := (splitNlL s.data).map (fun l => ⟨l⟩)

/-- JS `s.startsWith(pre)`. -/
def startsWithL (s pre : String) : Bool := pre.data.isPrefixOf s.data

/-! ## Diff engine — data model (`media/gitGraphView.js`) -/

/-- The `kind` tags used by `parseUnifiedDiff`: `'add' | 'del' | 'ctx' | 'meta'`. -/
inductive Kind where
  | add
  | del
  | ctx
  | meta
deriving DecidableEq, Repr

/-- One entry of a hunk's `lines` array:
`{ kind, oldNo, newNo, text }`, with `''` line numbers modelled as `none`. -/
structure DiffLine where
  kind : Kind
  oldNo : Option Nat
  newNo : Option Nat
  text : String
deriving DecidableEq, Repr

/-- One entry of the `hunks` array: `{ meta: [], lines: [] }`. -/
structure Hunk where
  meta : List String
  lines : List DiffLine
deriving DecidableEq, Repr

/-! ## Diff engine — parser (`parseUnifiedDiff`) -/

def isDigitC (c : Char) : Bool := '0' ≤ c && c ≤ '9'

/-- Value of a digit run, as `parseInt(m[i], 10)` computes it. -/
def digitsToNat (ds : List Char) : Nat :=
  ds.foldl (fun n c => 10 * n + (c.toNat - '0'.toNat)) 0

/-- Greedy `[0-9]+`: reads one or more digits, returns the value and the rest. -/
def readNum (cs : List Char) : Option (Nat × List Char) :=
  match cs.takeWhile isDigitC with
  | [] => none
  | ds => some (digitsToNat ds, cs.dropWhile isDigitC)

/-- Match a literal character sequence at the front. -/
def dropLit : List Char → List Char → Option (List Char)
  | [], cs => some cs
  | p :: ps, c :: cs => if c = p then dropLit ps cs else none
  | _ :: _, [] => none

/-- The regex fragment `(?:,[0-9]+)?` followed by the literal `lit`:
first try taking the optional group, then try without it (the only
backtracking the pattern can perform, since a shortened digit run would
leave a digit where a non-digit is required). -/
def optLenThen (lit : List Char) (cs : List Char) : Option (List Char) :=
  (match cs with
   | ',' :: cs1 =>
     match readNum cs1 with
     | some (_, cs2) => dropLit lit cs2
     | none => none
   | _ => none) <|> dropLit lit cs

/-- Match `@@ -([0-9]+)(?:,[0-9]+)? \+([0-9]+)(?:,[0-9]+)? @@` at the start of
`cs`, returning the two captured numbers. -/
def matchHeaderAt (cs : List Char) : Option (Nat × Nat) := do
  let cs1 ← dropLit "@@ -".data cs
  let (a, cs2) ← readNum cs1
  let cs3 ← optLenThen " +".data cs2
  let (b, cs4) ← readNum cs3
  let _ ← optLenThen " @@".data cs4
  pure (a, b)

/-- Leftmost search of the hunk-header pattern in a line, as
`/@@ -([0-9]+)(?:,[0-9]+)? \+([0-9]+)(?:,[0-9]+)? @@/.exec(line)` does. -/
def findHeaderNums : List Char → Option (Nat × Nat)
  | [] => none
  | c :: cs => matchHeaderAt (c :: cs) <|> findHeaderNums cs

/-- Parser state: the `hunks` array, whether `cur` is non-null, and the two
line counters.  In the source `cur` always aliases the most recently pushed
element of `hunks` (it is pushed exactly when it is created and never reset
to `null`), so mutations of `cur` are modelled as mutations of the last
element of `hunks`. -/
structure PState where
  hunks : List Hunk
  hasCur : Bool
  oldNo : Nat
  newNo : Nat
deriving Repr

/-- Apply `f` to the last element of the list (the hunk `cur` points at). -/
def mapLast (f : Hunk → Hunk) : List Hunk → List Hunk
  | [] => []
  | [h] => [f h]
  | h :: hs => h :: mapLast f hs

/-- JS `if (!cur) { cur = { meta: [], lines: [] }; hunks.push(cur); }`. -/
def ensureCur (s : PState) : PState :=
  if s.hasCur then s else { s with hunks := s.hunks ++ [⟨[], []⟩], hasCur := true }

/-- The `cur.meta.push(line)`, opening `cur` first if necessary. -/
def pushMeta (s : PState) (line : String) : PState :=
  let s1 := ensureCur s
  { s1 with hunks := mapLast (fun h => { h with meta := h.meta ++ [line] }) s1.hunks }

/-- The `cur.lines.push(ln)` (callers have already ensured `cur` is open). -/
def pushLine (s : PState) (ln : DiffLine) : PState :=
  { s with hunks := mapLast (fun h => { h with lines := h.lines ++ [ln] }) s.hunks }

/-- One iteration of the `while (i < lines.length)` loop of `parseUnifiedDiff`. -/
def parseStep (s : PState) (line : String) : PState :=
  if startsWithL line "@@" then
    let s1 := match findHeaderNums line.data with
              | some (a, b) => { s with oldNo := a, newNo := b }
              | none => s
    pushMeta s1 line
  else if startsWithL line "diff " || startsWithL line "index " ||
          startsWithL line "--- " || startsWithL line "+++ " then
    pushMeta s line
  else
    let s1 := ensureCur s
    if startsWithL line "+" then
      pushLine { s1 with newNo := s1.newNo + 1 } ⟨.add, none, some s1.newNo, line⟩
    else if startsWithL line "-" then
      pushLine { s1 with oldNo := s1.oldNo + 1 } ⟨.del, some s1.oldNo, none, line⟩
    else if startsWithL line " " || line = "" then
      pushLine { s1 with oldNo := s1.oldNo + 1, newNo := s1.newNo + 1 }
        ⟨.ctx, some s1.oldNo, some s1.newNo, if line = "" then " " else line⟩
    else if startsWithL line "\\" then
      pushLine s1 ⟨.meta, none, none, line⟩
    else
      pushLine s1 ⟨.ctx, none, none, line⟩

def initState : PState := ⟨[], false, 0, 0⟩

/-- The `parseUnifiedDiff` on an already split line list. -/
def parseLines (ls : List String) : List Hunk := (ls.foldl parseStep initState).hunks

/-- The `parseUnifiedDiff(text)` from `media/gitGraphView.js`. -/
def parseUnifiedDiff (text : String) : List Hunk := parseLines (splitNl text)

/-! ## Diff engine — renderer (`renderDiff`, `createRow`, `addCollapsed`)

A rendered row is either an ordinary `diff-row` (CSS class, the text shown
in the two line-number cells, and the code text) or the synthetic collapsed
row built by `addCollapsed`, which carries the count shown on its button and
the hidden lines kept for later expansion. -/

inductive Row where
  | plain (cls oldStr newStr text : String)
  | collapsed (count : Nat) (hidden : List DiffLine)
deriving DecidableEq, Repr

def Row.isCollapsed : Row → Bool
  | .plain _ _ _ _ => false
  | .collapsed _ _ => true

/-- The CSS class assigned in `createRow`. -/
def clsOf : Kind → String
  | .add => "diff-row added"
  | .del => "diff-row removed"
  | .meta => "diff-row meta"
  | .ctx => "diff-row context"

/-- The `String(ln.oldNo || '')`: the number `0` and the empty string are both
falsy, so both display as blank. -/
def fmtNo : Option Nat → String
  | none => ""
  | some 0 => ""
  | some n => toString n

/-- The `createRow(ln)` from `media/gitGraphView.js`. -/
def createRow (ln : DiffLine) : Row :=
  .plain (clsOf ln.kind) (fmtNo ln.oldNo) (fmtNo ln.newNo) ln.text

/-- Number-cell text of a row (`''` for both cells of a collapsed row). -/
def rowOldStr : Row → String
  | .plain _ o _ _ => o
  | .collapsed _ _ => ""

def rowNewStr : Row → String
  | .plain _ _ n _ => n
  | .collapsed _ _ => ""

/-- JS `flushRun`: push the pending run onto `ctxRuns` if it is non-empty. -/
def flushRunState (run : List DiffLine) (ctxRuns : List (List DiffLine)) :
    List (List DiffLine) :=
  if run = [] then ctxRuns else ctxRuns ++ [run]

/-- The `for (const ln of h.lines)` walk of `renderDiff`: non-context lines
are rendered immediately, consecutive context lines accumulate into `run`,
and each completed run is pushed onto `ctxRuns`.  Returns the rows emitted
during the walk and the final `ctxRuns`. -/
def bodyWalk : List DiffLine → List DiffLine → List (List DiffLine) →
    List Row × List (List DiffLine)
  | [], run, ctxRuns => ([], flushRunState run ctxRuns)
  | ln :: rest, run, ctxRuns =>
    if ln.kind = .ctx then bodyWalk rest (run ++ [ln]) ctxRuns
    else
      let r := bodyWalk rest [] (flushRunState run ctxRuns)
      (createRow ln :: r.1, r.2)

/-- The `for (const group of ctxRuns)` body: collapse a long context run
(`COLLAPSE_THRESHOLD = 20`, head/tail window 3, hidden = `group.slice(3,-3)`),
or render it verbatim. -/
def flushGroup (collapse : Bool) (group : List DiffLine) : List Row :=
  if collapse && decide (20 < group.length) then
    (group.take 3).map createRow ++
      Row.collapsed ((group.drop 3).take (group.length - 6)).length
        ((group.drop 3).take (group.length - 6)) ::
      (group.drop (group.length - 3)).map createRow
  else
    group.map createRow

/-- Rows appended for one hunk: its meta rows, then the rows of the body
walk, then the context runs. -/
def renderHunk (collapse : Bool) (h : Hunk) : List Row :=
  let w := bodyWalk h.lines [] []
  h.meta.map (fun m => createRow ⟨.meta, none, none, m⟩) ++
    w.1 ++ (w.2.map (flushGroup collapse)).flatten

/-- The `renderDiff` from `media/gitGraphView.js`, as a function of the parsed
hunks and the two display options.  `showNums` only toggles the
`no-linenos` CSS class on the container, so it does not affect the emitted
rows. -/
def renderDiff (hunks : List Hunk) (_showNums collapse : Bool) : List Row :=
  (hunks.map (renderHunk collapse)).flatten

/-- Clicking the button of a collapsed row replaces it with the rows of its
hidden lines: `row.replaceWith(...hiddenLines.map(h => createRow(h)))`. -/
def expandCollapsed (_count : Nat) (hidden : List DiffLine) : List Row :=
  hidden.map createRow

/-! ## Message sanitizer (`src/commitMessage.ts`)

All stages are defined on `List Char` (the content of a JS string) with
`String` wrappers at the API boundary. -/

/-- JS `line.replace(/\s+$/u, '')`. -/
def stripTrailingWsL (l : List Char) : List Char :=
  (l.reverse.dropWhile isWsChar).reverse

/-- JS `s.trim()` (strip both ends; stripping trailing first is
extensionally the same). -/
def trimL (l : List Char) : List Char :=
  (stripTrailingWsL l).dropWhile isWsChar

/-- The `!line.trim()`: a line is blank iff every character is whitespace. -/
def blankLine (l : List Char) : Bool := l.all isWsChar

/-- The line-list transformation inside `stripEmptyEdges`: shift leading
blank lines, pop trailing blank lines, strip trailing whitespace from each
remaining line. -/
def stripEmptyEdgesLines (ls : List (List Char)) : List (List Char) :=
  (((ls.dropWhile blankLine).reverse.dropWhile blankLine).reverse).map stripTrailingWsL

/-- The `stripEmptyEdges(value)` from `src/commitMessage.ts`. -/
def stripEmptyEdgesC (v : List Char) : List Char :=
  joinNl (stripEmptyEdgesLines (splitRNL v))

/-- The `isFence(line)`: the line, trimmed, starts with three backticks. -/
def isFenceL (l : List Char) : Bool := "```".data.isPrefixOf (trimL l)

/-- The line-list transformation inside `stripCodeFences`: the two `while`
loops shift every leading fence line and pop every trailing fence line. -/
def stripCodeFencesLines (ls : List (List Char)) : List (List Char) :=
  ((ls.dropWhile isFenceL).reverse.dropWhile isFenceL).reverse

/-- The `stripCodeFences(value)` from `src/commitMessage.ts`. -/
def stripCodeFencesC (v : List Char) : List Char :=
  joinNl (stripCodeFencesLines (splitRNL v))

/-- The quote-like character class of `stripOuterQuotes`:
`` ` `` `"` `'` `“` `”` `‘` `’` `«` `»`. -/
def isQuoteChar (c : Char) : Bool :=
  c == '`' || c == '"' || c == '\'' || c == '“' || c == '”' ||
  c == '‘' || c == '’' || c == '«' || c == '»'

/-- The `stripOuterQuotes(value)`: drop the leading run of quote-like
characters, then the trailing run. -/
def stripOuterQuotesC (v : List Char) : List Char :=
  ((v.dropWhile isQuoteChar).reverse.dropWhile isQuoteChar).reverse

/-! ### `JSON.parse`, modelled

`tryParseJsonForMessage` calls the JavaScript builtin `JSON.parse`; we model
it with a standard recursive-descent JSON parser (fuelled to make the
recursion structural).  Note: a `\uXXXX` escape denoting a lone UTF-16
surrogate is not a valid Lean `Char` and is mapped to NUL by `Char.ofNat`;
no claim depends on that corner. -/

inductive JVal where
  | jnull
  | jbool (b : Bool)
  | jnum
  | jstr (s : List Char)
  | jarr (elems : List JVal)
  | jobj (fields : List (List Char × JVal))
deriving Repr

/-- JSON insignificant whitespace (space, tab, newline, carriage return). -/
def jsonWsDrop (cs : List Char) : List Char :=
  cs.dropWhile (fun c => c == ' ' || c == '\t' || c == '\n' || c == '\r')

/-- Value of one hex digit (by code point: 48–57 are `0`–`9`, 65–70 are
`A`–`F`, 97–102 are `a`–`f`). -/
def hexDigitVal (c : Char) : Option Nat :=
  let n := c.toNat
  if 48 ≤ n ∧ n ≤ 57 then some (n - 48)
  else if 65 ≤ n ∧ n ≤ 70 then some (n - 55)
  else if 97 ≤ n ∧ n ≤ 102 then some (n - 87)
  else none

/-- Four hex digits after a `\u` escape. -/
def readHex4 (cs : List Char) : Option (Nat × List Char) :=
  match cs with
  | h1 :: h2 :: h3 :: h4 :: rest =>
    match hexDigitVal h1, hexDigitVal h2, hexDigitVal h3, hexDigitVal h4 with
    | some x1, some x2, some x3, some x4 =>
      some (((x1 * 16 + x2) * 16 + x3) * 16 + x4, rest)
    | _, _, _, _ => none
  | _ => none

/-- The single-character escapes of a JSON string (`\u` handled apart). -/
def escapeCharFor (e : Char) : Option Char :=
  if e = 'n' then some '\n'
  else if e = 't' then some '\t'
  else if e = 'r' then some '\r'
  else if e = 'b' then some '\x08'
  else if e = 'f' then some '\x0C'
  else if e = '"' ∨ e = '\\' ∨ e = '/' then some e
  else none

/-- Body of a JSON string after the opening quote: plain characters,
escapes, and rejection of raw control characters. -/
def jsonStringBody : Nat → List Char → List Char → Option (List Char × List Char)
  | 0, _, _ => none
  | _ + 1, [], _ => none
  | f + 1, c :: cs, acc =>
    if c = '"' then some (acc.reverse, cs)
    else if c = '\\' then
      match cs with
      | 'u' :: cs1 =>
        match readHex4 cs1 with
        | some (n, cs2) => jsonStringBody f cs2 (Char.ofNat n :: acc)
        | none => none
      | e :: cs1 =>
        match escapeCharFor e with
        | some ch => jsonStringBody f cs1 (ch :: acc)
        | none => none
      | [] => none
    else if c.toNat < 32 then none
    else jsonStringBody f cs (c :: acc)

/-- One or more digits, returning the remainder. -/
def readDigits1 (cs : List Char) : Option (List Char) :=
  match cs.takeWhile isDigitC with
  | [] => none
  | _ => some (cs.dropWhile isDigitC)

/-- A JSON number token `-?(0|[1-9][0-9]*)(\.[0-9]+)?([eE][+-]?[0-9]+)?`,
returning the remainder. -/
def jsonNumber (cs : List Char) : Option (List Char) := do
  let cs1 := match cs with
             | '-' :: r => r
             | _ => cs
  let cs2 ← match cs1 with
            | '0' :: r => some r
            | c :: _ => if isDigitC c then readDigits1 cs1 else none
            | [] => none
  let cs3 ← match cs2 with
            | '.' :: r => readDigits1 r
            | _ => some cs2
  match cs3 with
  | 'e' :: r | 'E' :: r =>
    let r1 := match r with
              | '+' :: r2 => r2
              | '-' :: r2 => r2
              | _ => r
    readDigits1 r1
  | _ => some cs3

mutual

/-- A JSON value starting at `cs` (leading whitespace already dropped).
The three keyword literals are matched with `dropLit`; a string, array or
object is recognised by its first character; everything else is tried as a
number. -/
def jsonVal : Nat → List Char → Option (JVal × List Char)
  | 0, _ => none
  | f + 1, cs =>
    ((dropLit "null".data cs).map (fun r => (JVal.jnull, r))) <|>
    ((dropLit "true".data cs).map (fun r => (JVal.jbool true, r))) <|>
    ((dropLit "false".data cs).map (fun r => (JVal.jbool false, r))) <|>
    (match cs with
     | '"' :: rest =>
       (jsonStringBody (rest.length + 1) rest []).map
         (fun p => (JVal.jstr p.1, p.2))
     | '[' :: rest => jsonArr f (jsonWsDrop rest) []
     | '\x7b' :: rest => jsonObj f (jsonWsDrop rest) []
     | _ => (jsonNumber cs).map (fun r => (JVal.jnum, r)))

/-- Elements of an array after `[` (or after a `,`), whitespace dropped. -/
def jsonArr : Nat → List Char → List JVal → Option (JVal × List Char)
  | 0, _, _ => none
  | f + 1, cs, acc =>
    match cs, acc with
    | ']' :: rest, [] => some (.jarr [], rest)
    | _, _ => do
      let (v, cs1) ← jsonVal f cs
      match jsonWsDrop cs1 with
      | ',' :: rest => jsonArr f (jsonWsDrop rest) (acc ++ [v])
      | ']' :: rest => some (.jarr (acc ++ [v]), rest)
      | _ => none

/-- Members of an object after `{` (or after a `,`), whitespace dropped. -/
def jsonObj : Nat → List Char → List (List Char × JVal) →
    Option (JVal × List Char)
  | 0, _, _ => none
  | f + 1, cs, acc =>
    match cs, acc with
    | '\x7d' :: rest, [] => some (.jobj [], rest)
    | '"' :: rest, _ => do
      let (k, cs1) ← jsonStringBody (rest.length + 1) rest []
      match jsonWsDrop cs1 with
      | ':' :: cs2 => do
        let (v, cs3) ← jsonVal f (jsonWsDrop cs2)
        match jsonWsDrop cs3 with
        | ',' :: rest2 => jsonObj f (jsonWsDrop rest2) (acc ++ [(k, v)])
        | '\x7d' :: rest2 => some (.jobj (acc ++ [(k, v)]), rest2)
        | _ => none
      | _ => none
    | _, _ => none

end

/-- The `JSON.parse(value)`: a single value surrounded by whitespace, consuming
the whole input; `none` models the thrown `SyntaxError`. -/
def jsonParse (cs : List Char) : Option JVal :=
  match jsonVal (2 * cs.length + 2) (jsonWsDrop cs) with
  | some (v, rest) => if jsonWsDrop rest = [] then some v else none
  | none => none

/-- The ordered candidate field list `JSON_FIELDS`. -/
def jsonFieldList : List (List Char) :=
  ["message".data, "commit".data, "response".data, "text".data, "content".data]

/-- The `parsed[field]`: JS object lookup; `JSON.parse` keeps the last
occurrence of a duplicated key. -/
def lookupField (fields : List (List Char × JVal)) (key : List Char) : Option JVal :=
  (fields.reverse.find? (fun p => p.1 == key)).map Prod.snd

/-- The `for (const field of JSON_FIELDS)` loop: first field whose value is
a string with non-empty trim. -/
def scanFields (fields : List (List Char × JVal)) : List (List Char) → Option (List Char)
  | [] => none
  | k :: ks =>
    match lookupField fields k with
    | some (.jstr s) => if trimL s = [] then scanFields fields ks else some (trimL s)
    | _ => scanFields fields ks

/-- The `tryParseJsonForMessage(value)` from `src/commitMessage.ts`:
a parsed top-level string is returned trimmed (possibly empty); an object
is scanned for the candidate fields; anything else — including a parse
error — yields `none`. -/
def tryParseJsonForMessageC (value : List Char) : Option (List Char) :=
  match jsonParse value with
  | some (.jstr s) => some (trimL s)
  | some (.jobj fields) => scanFields fields jsonFieldList
  | _ => none

/-- The JSON-unwrap step of `sanitizeCommitMessage`: when the text starts
(after leading whitespace) with `{`, replace it by the extracted message —
but only if that extraction is a non-empty string (`if (fromJson)`). -/
def jsonStage (t : List Char) : List Char :=
  if (t.dropWhile isWsChar).head? = some '\x7b' then
    match tryParseJsonForMessageC t with
    | some s => if s = [] then t else s
    | none => t
  else t

/-- The `sanitizeCommitMessage(raw)` from `src/commitMessage.ts`, with its three
early `return undefined` exits. -/
def sanitizeCore (raw : List Char) : Option (List Char) :=
  if raw = [] then none
  else
    let text1 := stripEmptyEdgesC raw
    if text1 = [] then none
    else
      let text2 := trimL (stripCodeFencesC text1)
      if text2 = [] then none
      else
        let text3 := jsonStage text2
        let text4 := stripEmptyEdgesC (stripOuterQuotesC text3)
        if text4 = [] then none else some text4

/-- The `sanitizeCommitMessage` at the `String` level. -/
def sanitizeCommitMessage (raw : String) : Option String :=
  (sanitizeCore raw.data).map (fun cs => ⟨cs⟩)

/-- JS `s.trim()` at the `String` level. -/
def trimStr (s : String) : String := ⟨trimL s.data⟩

/-- The `stripCodeFences` at the `String` level. -/
def stripCodeFences (value : String) : String := ⟨stripCodeFencesC value.data⟩

/-- The sanitizer pipeline run straight through, without the early exits:
the "final post-pipeline string".  (When an early exit fires, every later
stage maps the empty string to itself, so `sanitizeCore` agrees with this
composition — proved below.) -/
def pipelineC (raw : List Char) : List Char :=
  stripEmptyEdgesC (stripOuterQuotesC (jsonStage (trimL (stripCodeFencesC (stripEmptyEdgesC raw)))))

/-! ## Derived notions used by the claims -/

/-- The assigned old numbers of the `removed`/`context` lines in a body
line list (lines the lenient fallback left unnumbered contribute nothing). -/
def oldNumsL (ls : List DiffLine) : List Nat :=
  ls.filterMap (fun ln =>
    match ln.kind with
    | .del => ln.oldNo
    | .ctx => ln.oldNo
    | _ => none)

/-- The assigned new numbers of the `added`/`context` lines in a body line
list. -/
def newNumsL (ls : List DiffLine) : List Nat :=
  ls.filterMap (fun ln =>
    match ln.kind with
    | .add => ln.newNo
    | .ctx => ln.newNo
    | _ => none)

/-- The `oldLineNumber` sequence of a hunk. -/
def oldNums (h : Hunk) : List Nat := oldNumsL h.lines

/-- The `newLineNumber` sequence of a hunk. -/
def newNums (h : Hunk) : List Nat := newNumsL h.lines

/-- A raw input line that the parser classifies as a numbered body line
(an `add`/`del` line or a `ctx` line with counters assigned). -/
def isBodyNumbered (line : String) : Bool :=
  !startsWithL line "@@" && !startsWithL line "diff " && !startsWithL line "index " &&
  !startsWithL line "--- " && !startsWithL line "+++ " &&
  (startsWithL line "+" || startsWithL line "-" || startsWithL line " " || line == "")

/-- A raw input line that resets the two counters: it starts with `@@` and
the hunk-header pattern matches somewhere in it. -/
def resetsCounters (line : String) : Bool :=
  startsWithL line "@@" && (findHeaderNums line.data).isSome

/-- A rendered row of non-meta, non-collapsed kind. -/
def isCountedRow : Row → Bool
  | .plain cls _ _ _ => cls != "diff-row meta"
  | .collapsed _ _ => false

/-- Number of lines a row hides (non-zero only for collapsed rows). -/
def hiddenLen : Row → Nat
  | .collapsed _ hidden => hidden.length
  | _ => 0

/-- Total number of meta entries and body entries across the parsed hunks. -/
def entryCount (hs : List Hunk) : Nat :=
  (hs.map (fun h => h.meta.length + h.lines.length)).sum

/-- Total number of non-`meta` body lines across the parsed hunks. -/
def bodyNonMetaCount (hs : List Hunk) : Nat :=
  (hs.map (fun h => h.lines.countP (fun ln => ln.kind != Kind.meta))).sum

/-- A concrete context run of length 25 (used to instantiate the collapsing
claims at the threshold example from the spec). -/
def g25 : List DiffLine :=
  (List.range 25).map (fun i => ⟨.ctx, some (i + 1), some (i + 1), " x"⟩)

/-- Total number of `@@`-starting lines among the meta lines of the hunks. -/
def metaAtCount (hs : List Hunk) : Nat :=
  (hs.map (fun h => h.meta.countP (fun l => startsWithL l "@@"))).sum

/-- The reachable states of the parser: the `hunks` array is empty with
`cur` null, or holds exactly the one open hunk `cur` aliases. -/
def shapeInv (s : PState) : Prop :=
  (s.hunks = [] ∧ s.hasCur = false) ∨ (∃ h, s.hunks = [h] ∧ s.hasCur = true)

/-- Monotonicity invariant carried through the reset-free phase of the
parse: within every hunk the recorded old/new numbers are strictly
increasing and bounded by the running counters. -/
def MonoInv (s : PState) : Prop :=
  ∀ h ∈ s.hunks,
    List.Pairwise (· < ·) (oldNums h) ∧ (∀ x ∈ oldNums h, x < s.oldNo) ∧
    List.Pairwise (· < ·) (newNums h) ∧ (∀ x ∈ newNums h, x < s.newNo)

/-! ## Renderer lemmas -/

/-- The rows emitted during the body walk are exactly the non-context body
lines, rendered in their original relative order. -/
theorem bodyWalk_fst (ls : List DiffLine) :
    ∀ run rs, (bodyWalk ls run rs).1 =
      (ls.filter (fun ln => ln.kind != Kind.ctx)).map createRow := by
  induction ls with
  | nil => intro run rs; rfl
  | cons ln rest ih =>
    intro run rs
    by_cases h : ln.kind = Kind.ctx
    · simp [bodyWalk, h, ih]
    · simp [bodyWalk, h, ih]

theorem flushRunState_len (run : List DiffLine) (rs : List (List DiffLine)) :
    ((flushRunState run rs).map List.length).sum =
      (rs.map List.length).sum + run.length := by
  by_cases h : run = [] <;> simp [flushRunState, h]

/-- The context runs produced by the body walk collect every context body
line (counted with multiplicity). -/
theorem bodyWalk_snd_len (ls : List DiffLine) :
    ∀ run rs, (((bodyWalk ls run rs).2).map List.length).sum =
      (rs.map List.length).sum + run.length +
        ls.countP (fun ln => ln.kind == Kind.ctx) := by
  induction ls with
  | nil => intro run rs; simp [bodyWalk, flushRunState_len]
  | cons ln rest ih =>
    intro run rs
    by_cases h : ln.kind = Kind.ctx
    · simp [bodyWalk, h, ih, List.countP_cons]
      try omega
    · simp [bodyWalk, h, ih, flushRunState_len, List.countP_cons]
      try omega

theorem mem_flushRunState {g run : List DiffLine} {rs : List (List DiffLine)}
    (h : g ∈ flushRunState run rs) : g ∈ rs ∨ g = run := by
  unfold flushRunState at h
  split at h
  · exact Or.inl h
  · rcases List.mem_append.1 h with h | h
    · exact Or.inl h
    · simp at h
      exact Or.inr h

/-- Every context run produced by the body walk consists of context lines
only. -/
theorem bodyWalk_snd_ctx (ls : List DiffLine) :
    ∀ run rs, (∀ g ∈ rs, ∀ l ∈ g, l.kind = Kind.ctx) →
      (∀ l ∈ run, l.kind = Kind.ctx) →
      ∀ g ∈ (bodyWalk ls run rs).2, ∀ l ∈ g, l.kind = Kind.ctx := by
  induction ls with
  | nil =>
    intro run rs hrs hrun g hg
    rcases mem_flushRunState hg with h | h
    · exact hrs g h
    · exact h ▸ hrun
  | cons ln rest ih =>
    intro run rs hrs hrun g hg
    by_cases h : ln.kind = Kind.ctx
    · rw [bodyWalk, if_pos h] at hg
      refine ih (run ++ [ln]) rs hrs ?_ g hg
      intro l hl
      rcases List.mem_append.1 hl with hl | hl
      · exact hrun l hl
      · simp at hl
        exact hl ▸ h
    · rw [bodyWalk, if_neg h] at hg
      refine ih [] (flushRunState run rs) ?_ (by simp) g hg
      intro g' hg' l hl
      rcases mem_flushRunState hg' with h' | h'
      · exact hrs g' h' l hl
      · exact (h' ▸ hrun) l hl

/-- Walking a body made of context lines only emits no rows and yields the
whole body as a single pending run. -/
theorem bodyWalk_all_ctx (g : List DiffLine) :
    ∀ run rs, (∀ l ∈ g, l.kind = Kind.ctx) →
      bodyWalk g run rs = ([], flushRunState (run ++ g) rs) := by
  induction g with
  | nil => intro run rs _; simp [bodyWalk]
  | cons ln rest ih =>
    intro run rs hg
    have hln : ln.kind = Kind.ctx := hg ln (by simp)
    rw [bodyWalk, if_pos hln, ih (run ++ [ln]) rs (fun l hl => hg l (by simp [hl]))]
    simp

theorem isCountedRow_createRow (ln : DiffLine) :
    isCountedRow (createRow ln) = (ln.kind != Kind.meta) := by
  obtain ⟨k, o, n, t⟩ := ln
  cases k <;> rfl

theorem hiddenLen_createRow (ln : DiffLine) : hiddenLen (createRow ln) = 0 := rfl

/-- Flushing a context run never loses a line: the counted rows plus the
lines hidden in a collapsed row add up to the run's length. -/
theorem flushGroup_conservation (c : Bool) (g : List DiffLine)
    (hg : ∀ l ∈ g, l.kind = Kind.ctx) :
    (flushGroup c g).countP isCountedRow +
      ((flushGroup c g).map hiddenLen).sum = g.length := by
  have hcount : ∀ l ∈ g, isCountedRow (createRow l) = true := by
    intro l hl
    rw [isCountedRow_createRow, hg l hl]
    rfl
  have s0 : ∀ X : List DiffLine, ((X.map createRow).map hiddenLen).sum = 0 := by
    intro X
    rw [List.map_map]
    refine List.sum_eq_zero ?_
    intro x hx
    rcases List.mem_map.1 hx with ⟨l, -, rfl⟩
    exact hiddenLen_createRow l
  unfold flushGroup
  split
  · next hc =>
    have hlen : 20 < g.length :=
      (show c = true ∧ 20 < g.length by simpa using hc).2
    have l1 : (g.take 3).length = 3 := by
      rw [List.length_take]
      omega
    have l2 : (g.drop (g.length - 3)).length = 3 := by
      rw [List.length_drop]
      omega
    have l3 : ((g.drop 3).take (g.length - 6)).length = g.length - 6 := by
      rw [List.length_take, List.length_drop]
      omega
    have e1 : ((g.take 3).map createRow).countP isCountedRow = 3 := by
      rw [List.countP_map]
      have h3 : List.countP (isCountedRow ∘ createRow) (g.take 3) =
          (g.take 3).length :=
        List.countP_eq_length.2 (fun l hl => hcount l (List.mem_of_mem_take hl))
      exact h3.trans l1
    have e2 : ((g.drop (g.length - 3)).map createRow).countP isCountedRow = 3 := by
      rw [List.countP_map]
      have h3 : List.countP (isCountedRow ∘ createRow) (g.drop (g.length - 3)) =
          (g.drop (g.length - 3)).length :=
        List.countP_eq_length.2 (fun l hl => hcount l (List.mem_of_mem_drop hl))
      exact h3.trans l2
    rw [List.countP_append, List.countP_cons, e1, e2, List.map_append,
      List.map_cons, List.sum_append, List.sum_cons, s0, s0]
    simp [isCountedRow, hiddenLen, l3]
    omega
  · rw [List.countP_map, s0]
    have h1 : List.countP (isCountedRow ∘ createRow) g = g.length :=
      List.countP_eq_length.2 (fun l hl => hcount l hl)
    omega

theorem hiddenLen_map_createRow_sum (X : List DiffLine) :
    ((X.map createRow).map hiddenLen).sum = 0 := by
  rw [List.map_map]
  refine List.sum_eq_zero ?_
  intro x hx
  rcases List.mem_map.1 hx with ⟨l, -, rfl⟩
  exact hiddenLen_createRow l

/-- Body lines of kind other than `meta` split into the context ones and
the non-context ones. -/
theorem kindCount_split (ls : List DiffLine) :
    ls.countP (fun ln => ln.kind != Kind.meta) =
      ls.countP (fun ln => (ln.kind != Kind.meta) && (ln.kind != Kind.ctx)) +
        ls.countP (fun ln => ln.kind == Kind.ctx) := by
  induction ls with
  | nil => rfl
  | cons ln rest ih =>
    simp only [List.countP_cons, ih]
    cases h : ln.kind <;> simp [h] <;> omega

theorem flushGroups_conservation (c : Bool) (rs : List (List DiffLine))
    (hrs : ∀ g ∈ rs, ∀ l ∈ g, l.kind = Kind.ctx) :
    ((rs.map (flushGroup c)).flatten).countP isCountedRow +
      (((rs.map (flushGroup c)).flatten).map hiddenLen).sum =
      (rs.map List.length).sum := by
  induction rs with
  | nil => rfl
  | cons g rest ih =>
    simp only [List.map_cons, List.flatten_cons, List.countP_append,
      List.map_append, List.sum_append, List.sum_cons]
    have h1 := flushGroup_conservation c g (hrs g (by simp))
    have h2 := ih (fun g' hg' l hl => hrs g' (by simp [hg']) l hl)
    omega

/-- Per hunk, counted rows plus hidden lines account exactly for the
non-`meta` body lines. -/
theorem renderHunk_conservation (c : Bool) (h : Hunk) :
    (renderHunk c h).countP isCountedRow +
      ((renderHunk c h).map hiddenLen).sum =
      h.lines.countP (fun ln => ln.kind != Kind.meta) := by
  have hfun : (isCountedRow ∘ createRow) =
      (fun ln : DiffLine => ln.kind != Kind.meta) := funext isCountedRow_createRow
  unfold renderHunk
  rw [List.countP_append, List.countP_append, List.map_append, List.map_append,
    List.sum_append, List.sum_append]
  have m1 : (h.meta.map (fun m => createRow ⟨Kind.meta, none, none, m⟩)).countP
      isCountedRow = 0 := by
    rw [List.countP_map]
    refine List.countP_eq_zero.2 ?_
    intro m _
    exact fun hco => Bool.noConfusion hco
  have m2 : ((h.meta.map (fun m => createRow ⟨Kind.meta, none, none, m⟩)).map
      hiddenLen).sum = 0 := by
    rw [List.map_map]
    refine List.sum_eq_zero ?_
    intro x hx
    rcases List.mem_map.1 hx with ⟨m, -, rfl⟩
    rfl
  have w1c : ((bodyWalk h.lines [] []).1).countP isCountedRow =
      h.lines.countP
        (fun ln => (ln.kind != Kind.meta) && (ln.kind != Kind.ctx)) := by
    rw [bodyWalk_fst, List.countP_map, hfun, List.countP_filter]
  have w1h : (((bodyWalk h.lines [] []).1).map hiddenLen).sum = 0 := by
    rw [bodyWalk_fst]
    exact hiddenLen_map_createRow_sum _
  have w2 := flushGroups_conservation c (bodyWalk h.lines [] []).2
    (bodyWalk_snd_ctx h.lines [] [] (by simp) (by simp))
  have w2len := bodyWalk_snd_len h.lines [] []
  simp only [List.map_nil, List.sum_nil, List.length_nil, Nat.zero_add] at w2len
  rw [m1, m2, w1c, w1h, kindCount_split h.lines]
  omega

/-- Diff-wide conservation: no body line is lost by rendering — each is
either a counted row or hidden inside a collapsed row. -/
theorem renderDiff_conservation (hs : List Hunk) (sN c : Bool) :
    (renderDiff hs sN c).countP isCountedRow +
      ((renderDiff hs sN c).map hiddenLen).sum = bodyNonMetaCount hs := by
  unfold renderDiff bodyNonMetaCount
  induction hs with
  | nil => rfl
  | cons h rest ih =>
    simp only [List.map_cons, List.flatten_cons, List.countP_append,
      List.map_append, List.sum_append, List.sum_cons]
    have h1 := renderHunk_conservation c h
    omega

/-! ## Parser lemmas -/

theorem consHead_ne_nil (c : Char) (ls : List (List Char)) :
    consHead c ls ≠ [] := by
  cases ls <;> simp [consHead]

/-- Splitting never yields an empty line list (as in JS, where even
`''.split('\n')` is `['']`). -/
theorem splitNlL_ne_nil (cs : List Char) : splitNlL cs ≠ [] := by
  induction cs with
  | nil => simp [splitNlL]
  | cons c cs ih =>
    unfold splitNlL
    split
    · simp
    · simp
    · exact consHead_ne_nil _ _

theorem splitNl_ne_nil (text : String) : splitNl text ≠ [] := by
  unfold splitNl
  simp [splitNlL_ne_nil]

theorem ensureCur_nil (o n : Nat) :
    ensureCur ⟨[], false, o, n⟩ = ⟨[⟨[], []⟩], true, o, n⟩ := rfl

theorem ensureCur_one (h : Hunk) (b : Bool) (o n : Nat) (hb : b = true) :
    ensureCur ⟨[h], b, o, n⟩ = ⟨[h], b, o, n⟩ := by
  subst hb
  rfl

theorem pushMeta_nil (o n : Nat) (line : String) :
    pushMeta ⟨[], false, o, n⟩ line = ⟨[⟨[line], []⟩], true, o, n⟩ := rfl

theorem pushMeta_one (h : Hunk) (o n : Nat) (line : String) :
    pushMeta ⟨[h], true, o, n⟩ line =
      ⟨[⟨h.meta ++ [line], h.lines⟩], true, o, n⟩ := rfl

theorem pushLine_one (h : Hunk) (o n : Nat) (ln : DiffLine) :
    pushLine ⟨[h], true, o, n⟩ ln =
      ⟨[⟨h.meta, h.lines ++ [ln]⟩], true, o, n⟩ := rfl

theorem ensureCur_oldNo (s : PState) : (ensureCur s).oldNo = s.oldNo := by
  unfold ensureCur
  split <;> rfl

theorem ensureCur_newNo (s : PState) : (ensureCur s).newNo = s.newNo := by
  unfold ensureCur
  split <;> rfl

/-- Setting a counter after `ensureCur` is the same as ensuring the state
with the counter already set (`ensureCur` never touches the counters). -/
theorem ensureCur_setNew (hu : List Hunk) (hc : Bool) (o n X : Nat) :
    { ensureCur ⟨hu, hc, o, n⟩ with newNo := X } = ensureCur ⟨hu, hc, o, X⟩ := by
  by_cases h : hc <;> simp [ensureCur, h]

theorem ensureCur_setOld (hu : List Hunk) (hc : Bool) (o n X : Nat) :
    { ensureCur ⟨hu, hc, o, n⟩ with oldNo := X } = ensureCur ⟨hu, hc, X, n⟩ := by
  by_cases h : hc <;> simp [ensureCur, h]

theorem ensureCur_setBoth (hu : List Hunk) (hc : Bool) (o n X Y : Nat) :
    { ensureCur ⟨hu, hc, o, n⟩ with oldNo := X, newNo := Y } =
      ensureCur ⟨hu, hc, X, Y⟩ := by
  by_cases h : hc <;> simp [ensureCur, h]

/-- Effect of one parser step on the reachable-state shape and on the
entry/meta counts: every line adds exactly one entry, and exactly the
`@@`-starting lines add an `@@` meta line. -/
theorem parseStep_effects (s : PState) (line : String) (hs : shapeInv s) :
    shapeInv (parseStep s line) ∧
    (parseStep s line).hunks.length = 1 ∧
    entryCount (parseStep s line).hunks = entryCount s.hunks + 1 ∧
    metaAtCount (parseStep s line).hunks =
      metaAtCount s.hunks + (if startsWithL line "@@" then 1 else 0) := by
  obtain ⟨hunks, hasCur, o, n⟩ := s
  have hmeta : ∀ o' n' : Nat,
      shapeInv (pushMeta ⟨hunks, hasCur, o', n'⟩ line) ∧
      (pushMeta ⟨hunks, hasCur, o', n'⟩ line).hunks.length = 1 ∧
      entryCount (pushMeta ⟨hunks, hasCur, o', n'⟩ line).hunks =
        entryCount hunks + 1 ∧
      metaAtCount (pushMeta ⟨hunks, hasCur, o', n'⟩ line).hunks =
        metaAtCount hunks + (if startsWithL line "@@" then 1 else 0) := by
    intro o' n'
    rcases hs with ⟨h1, h2⟩ | ⟨h, h1, h2⟩ <;> simp at h1 h2 <;> subst h1 <;> subst h2
    · rw [pushMeta_nil]
      refine ⟨Or.inr ⟨_, rfl, rfl⟩, rfl, rfl, ?_⟩
      simp [metaAtCount, List.countP_cons]
    · rw [pushMeta_one]
      refine ⟨Or.inr ⟨_, rfl, rfl⟩, rfl, ?_, ?_⟩
      · simp [entryCount]
        omega
      · simp [metaAtCount, List.countP_append, List.countP_cons]
  have hline : ∀ (o' n' : Nat) (ln : DiffLine),
      (¬ startsWithL line "@@" = true) →
      shapeInv (pushLine (ensureCur ⟨hunks, hasCur, o', n'⟩) ln) ∧
      (pushLine (ensureCur ⟨hunks, hasCur, o', n'⟩) ln).hunks.length = 1 ∧
      entryCount (pushLine (ensureCur ⟨hunks, hasCur, o', n'⟩) ln).hunks =
        entryCount hunks + 1 ∧
      metaAtCount (pushLine (ensureCur ⟨hunks, hasCur, o', n'⟩) ln).hunks =
        metaAtCount hunks + (if startsWithL line "@@" then 1 else 0) := by
    intro o' n' ln hnot
    rcases hs with ⟨h1, h2⟩ | ⟨h, h1, h2⟩ <;> simp at h1 h2 <;> subst h1 <;> subst h2
    · rw [ensureCur_nil, pushLine_one]
      refine ⟨Or.inr ⟨_, rfl, rfl⟩, rfl, rfl, ?_⟩
      simp [metaAtCount, hnot]
    · rw [ensureCur_one _ _ _ _ rfl, pushLine_one]
      refine ⟨Or.inr ⟨_, rfl, rfl⟩, rfl, ?_, ?_⟩
      · simp [entryCount]
        omega
      · simp [metaAtCount, hnot]
  by_cases b1 : startsWithL line "@@" = true
  · rw [parseStep, if_pos b1]
    rcases hfind : findHeaderNums line.data with - | ⟨a, b⟩
    · simpa [hfind] using hmeta o n
    · simpa [hfind] using hmeta a b
  · rw [parseStep, if_neg b1]
    by_cases b2 : (startsWithL line "diff " || startsWithL line "index " ||
        startsWithL line "--- " || startsWithL line "+++ ") = true
    · rw [if_pos b2]
      exact hmeta o n
    · rw [if_neg b2]
      by_cases b3 : startsWithL line "+" = true
      · rw [if_pos b3]
        simp only [ensureCur_newNo, ensureCur_setNew]
        exact hline o (n + 1) _ b1
      · rw [if_neg b3]
        by_cases b4 : startsWithL line "-" = true
        · rw [if_pos b4]
          simp only [ensureCur_oldNo, ensureCur_setOld]
          exact hline (o + 1) n _ b1
        · rw [if_neg b4]
          by_cases b5 : (startsWithL line " " || line = "") = true
          · rw [if_pos b5]
            simp only [ensureCur_oldNo, ensureCur_newNo, ensureCur_setBoth]
            exact hline (o + 1) (n + 1) _ b1
          · rw [if_neg b5]
            by_cases b6 : startsWithL line "\\" = true
            · rw [if_pos b6]
              exact hline o n _ b1
            · rw [if_neg b6]
              exact hline o n _ b1

/-- Folding the parser over a line list, starting from a reachable state:
shape is preserved, every line contributes one entry, every `@@` line one
meta entry, and afterwards there is exactly one hunk (provided at least one
line was seen). -/
theorem parse_fold_effects (ls : List String) :
    ∀ s, shapeInv s →
      shapeInv (ls.foldl parseStep s) ∧
      entryCount (ls.foldl parseStep s).hunks = entryCount s.hunks + ls.length ∧
      metaAtCount (ls.foldl parseStep s).hunks =
        metaAtCount s.hunks + ls.countP (fun l => startsWithL l "@@") ∧
      (ls ≠ [] → (ls.foldl parseStep s).hunks.length = 1) := by
  induction ls with
  | nil =>
    intro s hs
    exact ⟨hs, by simp, by simp, fun h => absurd rfl h⟩
  | cons l rest ih =>
    intro s hs
    have hstep := parseStep_effects s l hs
    have hrest := ih (parseStep s l) hstep.1
    refine ⟨hrest.1, ?_, ?_, ?_⟩
    · rw [List.foldl_cons, hrest.2.1, hstep.2.2.1]
      simp
      omega
    · rw [List.foldl_cons, hrest.2.2.1, hstep.2.2.2, List.countP_cons]
      omega
    · intro _hne
      rw [List.foldl_cons]
      by_cases hr : rest = []
      · subst hr
        simpa using hstep.2.1
      · exact hrest.2.2.2 hr

/-! ## Parser lemmas — counter monotonicity -/

theorem oldNumsL_append (a b : List DiffLine) :
    oldNumsL (a ++ b) = oldNumsL a ++ oldNumsL b := by
  unfold oldNumsL
  exact List.filterMap_append a b _

theorem newNumsL_append (a b : List DiffLine) :
    newNumsL (a ++ b) = newNumsL a ++ newNumsL b := by
  unfold newNumsL
  exact List.filterMap_append a b _

theorem oldNumsL_single (ln : DiffLine) :
    oldNumsL [ln] = [] ∨ ∃ k, oldNumsL [ln] = [k] := by
  unfold oldNumsL
  rcases ln with ⟨k, ov, nv, t⟩
  cases k <;> cases ov <;> simp

theorem newNumsL_single (ln : DiffLine) :
    newNumsL [ln] = [] ∨ ∃ k, newNumsL [ln] = [k] := by
  unfold newNumsL
  rcases ln with ⟨k, ov, nv, t⟩
  cases k <;> cases nv <;> simp

theorem pairwise_lt_short (xs : List Nat)
    (h : xs = [] ∨ ∃ k, xs = [k]) : List.Pairwise (· < ·) xs := by
  rcases h with h | ⟨k, h⟩ <;> subst h <;> simp

/-- Appending one body line to the open hunk preserves the monotonicity
invariant, provided the numbers the line carries sit between the old
counters and the new ones. -/
theorem monoInv_push (hu : List Hunk) (hc : Bool) (o n o' n' : Nat)
    (ln : DiffLine) (hs : shapeInv (⟨hu, hc, o, n⟩ : PState))
    (inv : MonoInv ⟨hu, hc, o, n⟩)
    (hxo : ∀ x ∈ oldNumsL [ln], o ≤ x ∧ x < o') (hoo : o ≤ o')
    (hxn : ∀ x ∈ newNumsL [ln], n ≤ x ∧ x < n') (hnn : n ≤ n') :
    MonoInv (pushLine (ensureCur ⟨hu, hc, o', n'⟩) ln) := by
  rcases hs with ⟨h1, h2⟩ | ⟨h, h1, h2⟩ <;> simp at h1 h2 <;> subst h1 <;> subst h2
  · rw [ensureCur_nil, pushLine_one]
    intro hk hmem
    simp at hmem
    subst hmem
    refine ⟨?_, ?_, ?_, ?_⟩
    · exact pairwise_lt_short _ (by simpa [oldNums] using oldNumsL_single ln)
    · intro x hx
      simp [oldNums] at hx
      exact (hxo x (by simp [hx])).2
    · exact pairwise_lt_short _ (by simpa [newNums] using newNumsL_single ln)
    · intro x hx
      simp [newNums] at hx
      exact (hxn x (by simp [hx])).2
  · rw [ensureCur_one _ _ _ _ rfl, pushLine_one]
    intro hk hmem
    simp at hmem
    subst hmem
    have invh := inv h (by simp)
    have eo : oldNums ⟨h.meta, h.lines ++ [ln]⟩ = oldNums h ++ oldNumsL [ln] := by
      simp [oldNums, oldNumsL_append]
    have en : newNums ⟨h.meta, h.lines ++ [ln]⟩ = newNums h ++ newNumsL [ln] := by
      simp [newNums, newNumsL_append]
    rw [eo, en]
    refine ⟨?_, ?_, ?_, ?_⟩
    · refine List.pairwise_append.2
        ⟨invh.1, pairwise_lt_short _ (oldNumsL_single ln), ?_⟩
      intro a ha b hb
      exact lt_of_lt_of_le (invh.2.1 a ha) (hxo b hb).1
    · intro x hx
      rcases List.mem_append.1 hx with hx | hx
      · exact lt_of_lt_of_le (invh.2.1 x hx) hoo
      · exact (hxo x hx).2
    · refine List.pairwise_append.2
        ⟨invh.2.2.1, pairwise_lt_short _ (newNumsL_single ln), ?_⟩
      intro a ha b hb
      exact lt_of_lt_of_le (invh.2.2.2 a ha) (hxn b hb).1
    · intro x hx
      rcases List.mem_append.1 hx with hx | hx
      · exact lt_of_lt_of_le (invh.2.2.2 x hx) hnn
      · exact (hxn x hx).2

/-- Appending a meta line (with unchanged counters) preserves the
monotonicity invariant. -/
theorem monoInv_pushMeta (hu : List Hunk) (hc : Bool) (o n : Nat)
    (line : String) (hs : shapeInv (⟨hu, hc, o, n⟩ : PState))
    (inv : MonoInv ⟨hu, hc, o, n⟩) :
    MonoInv (pushMeta ⟨hu, hc, o, n⟩ line) := by
  rcases hs with ⟨h1, h2⟩ | ⟨h, h1, h2⟩ <;> simp at h1 h2 <;> subst h1 <;> subst h2
  · rw [pushMeta_nil]
    intro hk hmem
    simp at hmem
    subst hmem
    simp [oldNums, newNums, oldNumsL, newNumsL]
  · rw [pushMeta_one]
    intro hk hmem
    simp at hmem
    subst hmem
    simpa [oldNums, newNums] using inv h (by simp)

/-- A reset-free parser step preserves the monotonicity invariant. -/
theorem parseStep_mono (s : PState) (line : String) (hs : shapeInv s)
    (hr : resetsCounters line = false) (inv : MonoInv s) :
    MonoInv (parseStep s line) := by
  obtain ⟨hunks, hasCur, o, n⟩ := s
  by_cases b1 : startsWithL line "@@" = true
  · have hfind : findHeaderNums line.data = none := by
      rcases hres : findHeaderNums line.data with - | p
      · rfl
      · exfalso
        revert hr
        simp [resetsCounters, b1, hres]
    rw [parseStep, if_pos b1]
    simp only [hfind]
    exact monoInv_pushMeta hunks hasCur o n line hs inv
  · rw [parseStep, if_neg b1]
    by_cases b2 : (startsWithL line "diff " || startsWithL line "index " ||
        startsWithL line "--- " || startsWithL line "+++ ") = true
    · rw [if_pos b2]
      exact monoInv_pushMeta hunks hasCur o n line hs inv
    · rw [if_neg b2]
      by_cases b3 : startsWithL line "+" = true
      · rw [if_pos b3]
        simp only [ensureCur_newNo, ensureCur_setNew]
        refine monoInv_push hunks hasCur o n o (n + 1) _ hs inv ?_ le_rfl ?_ (by omega)
        · intro x hx
          simp [oldNumsL] at hx
        · intro x hx
          simp [newNumsL] at hx
          omega
      · rw [if_neg b3]
        by_cases b4 : startsWithL line "-" = true
        · rw [if_pos b4]
          simp only [ensureCur_oldNo, ensureCur_setOld]
          refine monoInv_push hunks hasCur o n (o + 1) n _ hs inv ?_ (by omega) ?_ le_rfl
          · intro x hx
            simp [oldNumsL] at hx
            omega
          · intro x hx
            simp [newNumsL] at hx
        · rw [if_neg b4]
          by_cases b5 : (startsWithL line " " || line = "") = true
          · rw [if_pos b5]
            simp only [ensureCur_oldNo, ensureCur_newNo, ensureCur_setBoth]
            refine monoInv_push hunks hasCur o n (o + 1) (n + 1) _ hs inv ?_ (by omega) ?_ (by omega)
            · intro x hx
              simp [oldNumsL] at hx
              omega
            · intro x hx
              simp [newNumsL] at hx
              omega
          · rw [if_neg b5]
            by_cases b6 : startsWithL line "\\" = true
            · rw [if_pos b6]
              refine monoInv_push hunks hasCur o n o n _ hs inv ?_ le_rfl ?_ le_rfl
              · intro x hx
                simp [oldNumsL] at hx
              · intro x hx
                simp [newNumsL] at hx
            · rw [if_neg b6]
              refine monoInv_push hunks hasCur o n o n _ hs inv ?_ le_rfl ?_ le_rfl
              · intro x hx
                simp [oldNumsL] at hx
              · intro x hx
                simp [newNumsL] at hx

/-- Folding reset-free lines preserves the monotonicity invariant. -/
theorem parse_fold_mono (ls : List String) :
    ∀ s, shapeInv s → (∀ l ∈ ls, resetsCounters l = false) →
      MonoInv s → MonoInv (ls.foldl parseStep s) := by
  induction ls with
  | nil => intro s _ _ inv; exact inv
  | cons l rest ih =>
    intro s hs hr inv
    rw [List.foldl_cons]
    exact ih (parseStep s l) (parseStep_effects s l hs).1
      (fun l' hl' => hr l' (by simp [hl']))
      (parseStep_mono s l hs (hr l (by simp)) inv)

/-- Pushing a meta line does not touch the body lines. -/
theorem empties_pushMeta (hu : List Hunk) (hc : Bool) (o n : Nat)
    (line : String) (hs : shapeInv (⟨hu, hc, o, n⟩ : PState))
    (hemp : ∀ h ∈ hu, oldNums h = [] ∧ newNums h = []) :
    ∀ h ∈ (pushMeta ⟨hu, hc, o, n⟩ line).hunks,
      oldNums h = [] ∧ newNums h = [] := by
  rcases hs with ⟨h1, h2⟩ | ⟨h, h1, h2⟩ <;> simp at h1 h2 <;> subst h1 <;> subst h2
  · rw [pushMeta_nil]
    intro hk hmem
    simp at hmem
    subst hmem
    simp [oldNums, newNums, oldNumsL, newNumsL]
  · rw [pushMeta_one]
    intro hk hmem
    simp at hmem
    subst hmem
    simpa [oldNums, newNums] using hemp h (by simp)

/-- Pushing an unnumbered body line leaves the number sequences empty. -/
theorem empties_push (hu : List Hunk) (hc : Bool) (o' n' : Nat)
    (ln : DiffLine) (hs : shapeInv (⟨hu, hc, o', n'⟩ : PState))
    (hemp : ∀ h ∈ hu, oldNums h = [] ∧ newNums h = [])
    (hln : oldNumsL [ln] = [] ∧ newNumsL [ln] = []) :
    ∀ h ∈ (pushLine (ensureCur ⟨hu, hc, o', n'⟩) ln).hunks,
      oldNums h = [] ∧ newNums h = [] := by
  rcases hs with ⟨h1, h2⟩ | ⟨h, h1, h2⟩ <;> simp at h1 h2 <;> subst h1 <;> subst h2
  · rw [ensureCur_nil, pushLine_one]
    intro hk hmem
    simp at hmem
    subst hmem
    simpa [oldNums, newNums] using hln
  · rw [ensureCur_one _ _ _ _ rfl, pushLine_one]
    intro hk hmem
    simp at hmem
    subst hmem
    have he := hemp h (by simp)
    constructor
    · rw [show oldNums ⟨h.meta, h.lines ++ [ln]⟩ =
          oldNums h ++ oldNumsL [ln] from by simp [oldNums, oldNumsL_append]]
      rw [he.1, hln.1]
      rfl
    · rw [show newNums ⟨h.meta, h.lines ++ [ln]⟩ =
          newNums h ++ newNumsL [ln] from by simp [newNums, newNumsL_append]]
      rw [he.2, hln.2]
      rfl

/-- Lines that are not numbered body lines leave the recorded number
sequences empty. -/
theorem parseStep_unnumbered (s : PState) (line : String) (hs : shapeInv s)
    (hb : isBodyNumbered line = false)
    (hemp : ∀ h ∈ s.hunks, oldNums h = [] ∧ newNums h = []) :
    ∀ h ∈ (parseStep s line).hunks, oldNums h = [] ∧ newNums h = [] := by
  obtain ⟨hunks, hasCur, o, n⟩ := s
  by_cases b1 : startsWithL line "@@" = true
  · rw [parseStep, if_pos b1]
    rcases hfind : findHeaderNums line.data with - | ⟨a, b⟩ <;> simp only [hfind]
    · exact empties_pushMeta hunks hasCur o n line hs hemp
    · exact empties_pushMeta hunks hasCur a b line hs hemp
  · rw [parseStep, if_neg b1]
    by_cases b2 : (startsWithL line "diff " || startsWithL line "index " ||
        startsWithL line "--- " || startsWithL line "+++ ") = true
    · rw [if_pos b2]
      exact empties_pushMeta hunks hasCur o n line hs hemp
    · rw [if_neg b2]
      have b1f : startsWithL line "@@" = false := by simpa using b1
      have b2f : startsWithL line "diff " = false ∧
          startsWithL line "index " = false ∧
          startsWithL line "--- " = false ∧
          startsWithL line "+++ " = false := by
        simpa [not_or, and_assoc] using b2
      have hbf : startsWithL line "+" = false ∧ startsWithL line "-" = false ∧
          startsWithL line " " = false ∧ line ≠ "" := by
        have := hb
        simp [isBodyNumbered, b1f, b2f.1, b2f.2.1, b2f.2.2.1, b2f.2.2.2,
          not_or, and_assoc] at this
        exact this
      rw [if_neg (by simp [hbf.1]), if_neg (by simp [hbf.2.1]),
        if_neg (by simp [hbf.2.2.1, hbf.2.2.2])]
      by_cases b6 : startsWithL line "\\" = true
      · rw [if_pos b6]
        exact empties_push hunks hasCur o n _ hs hemp ⟨rfl, rfl⟩
      · rw [if_neg b6]
        exact empties_push hunks hasCur o n _ hs hemp ⟨rfl, rfl⟩

/-- Folding unnumbered lines keeps the number sequences empty. -/
theorem parse_fold_unnumbered (ls : List String) :
    ∀ s, shapeInv s → (∀ l ∈ ls, isBodyNumbered l = false) →
      (∀ h ∈ s.hunks, oldNums h = [] ∧ newNums h = []) →
      ∀ h ∈ (ls.foldl parseStep s).hunks, oldNums h = [] ∧ newNums h = [] := by
  induction ls with
  | nil => intro s _ _ hemp; exact hemp
  | cons l rest ih =>
    intro s hs hb hemp
    rw [List.foldl_cons]
    exact ih (parseStep s l) (parseStep_effects s l hs).1
      (fun l' hl' => hb l' (by simp [hl']))
      (parseStep_unnumbered s l hs (hb l (by simp)) hemp)

/-! ## Sanitizer lemmas — trimming -/

theorem dw_head_false {α : Type} {p : α → Bool} {l : List α} {a : α}
    (h : (l.dropWhile p).head? = some a) : p a = false := by
  induction l with
  | nil => simp at h
  | cons c cs ih =>
    rw [List.dropWhile_cons] at h
    by_cases hc : p c = true
    · rw [if_pos hc] at h
      exact ih h
    · rw [if_neg hc] at h
      simp at h
      subst h
      simpa using hc

theorem dw_noop {α : Type} {p : α → Bool} {l : List α}
    (h : ∀ a, l.head? = some a → p a = false) : l.dropWhile p = l := by
  cases l with
  | nil => rfl
  | cons c cs =>
    rw [List.dropWhile_cons, if_neg]
    simp [h c rfl]

theorem dw_idem {α : Type} (p : α → Bool) (l : List α) :
    (l.dropWhile p).dropWhile p = l.dropWhile p := by
  refine dw_noop ?_
  intro a ha
  exact dw_head_false ha

theorem dw_getLast {α : Type} {p : α → Bool} {l : List α}
    (h : l.dropWhile p ≠ []) : (l.dropWhile p).getLast? = l.getLast? := by
  induction l with
  | nil => rfl
  | cons c cs ih =>
    rw [List.dropWhile_cons]
    by_cases hc : p c = true
    · rw [List.dropWhile_cons, if_pos hc] at h
      rw [if_pos hc, ih h]
      have hcs : cs ≠ [] := by
        intro he
        subst he
        simp at h
      cases cs with
      | nil => simp at hcs
      | cons d ds => rfl
    · rw [if_neg hc]

theorem st_getLast_false {l : List Char} {c : Char}
    (h : (stripTrailingWsL l).getLast? = some c) : isWsChar c = false := by
  unfold stripTrailingWsL at h
  rw [List.getLast?_reverse] at h
  exact dw_head_false h

theorem st_noop {l : List Char}
    (h : ∀ c, l.getLast? = some c → isWsChar c = false) :
    stripTrailingWsL l = l := by
  unfold stripTrailingWsL
  rw [dw_noop, List.reverse_reverse]
  intro a ha
  rw [List.head?_reverse] at ha
  exact h a ha

theorem st_idem (l : List Char) :
    stripTrailingWsL (stripTrailingWsL l) = stripTrailingWsL l := by
  unfold stripTrailingWsL
  rw [List.reverse_reverse, dw_idem]

theorem st_subset {l : List Char} {a : Char}
    (h : a ∈ stripTrailingWsL l) : a ∈ l := by
  unfold stripTrailingWsL at h
  rw [List.mem_reverse] at h
  exact List.mem_reverse.1 ((List.dropWhile_sublist _).subset h)

theorem st_eq_nil_iff (l : List Char) :
    stripTrailingWsL l = [] ↔ ∀ c ∈ l, isWsChar c = true := by
  unfold stripTrailingWsL
  rw [List.reverse_eq_nil_iff, List.dropWhile_eq_nil_iff]
  constructor
  · intro h c hc
    exact h c (List.mem_reverse.2 hc)
  · intro h c hc
    exact h c (List.mem_reverse.1 hc)

theorem trim_head_false {l : List Char} {c : Char}
    (h : (trimL l).head? = some c) : isWsChar c = false := by
  unfold trimL at h
  exact dw_head_false h

theorem trim_eq_nil_iff (l : List Char) :
    trimL l = [] ↔ ∀ c ∈ l, isWsChar c = true := by
  unfold trimL
  rw [List.dropWhile_eq_nil_iff]
  constructor
  · intro h c hc
    by_cases hw : isWsChar c = true
    · exact hw
    · exfalso
      have hmem : c ∈ stripTrailingWsL l := by
        have hrev : c ∈ l.reverse := List.mem_reverse.2 hc
        rw [← List.takeWhile_append_dropWhile isWsChar l.reverse] at hrev
        rcases List.mem_append.1 hrev with hm | hm
        · exact absurd (List.mem_takeWhile_imp hm) hw
        · exact List.mem_reverse.2 hm
      simp [h c hmem] at hw
  · intro h c hc
    exact h c (st_subset hc)

theorem trim_getLast_false {l : List Char} {c : Char}
    (h : (trimL l).getLast? = some c) : isWsChar c = false := by
  unfold trimL at h
  by_cases hne : (stripTrailingWsL l).dropWhile isWsChar = []
  · rw [hne] at h
    simp at h
  · rw [dw_getLast hne] at h
    exact st_getLast_false h

theorem trim_st (l : List Char) :
    trimL (stripTrailingWsL l) = trimL l := by
  unfold trimL
  rw [st_idem]

theorem trim_idem (l : List Char) : trimL (trimL l) = trimL l := by
  have h1 : stripTrailingWsL (trimL l) = trimL l :=
    st_noop (fun c hc => trim_getLast_false hc)
  show (stripTrailingWsL (trimL l)).dropWhile isWsChar = trimL l
  rw [h1]
  unfold trimL
  rw [dw_idem]

theorem trim_subset {l : List Char} {a : Char}
    (h : a ∈ trimL l) : a ∈ l := by
  unfold trimL at h
  exact st_subset ((List.dropWhile_sublist _).subset h)

/-! ## Sanitizer lemmas — line splitting and joining -/

theorem splitRN_single (l : List Char) (h : '\n' ∉ l) : splitRNL l = [l] := by
  induction l with
  | nil => rfl
  | cons c cs ih =>
    have hc : c ≠ '\n' := by
      intro he
      subst he
      exact h (by simp)
    have hcs : '\n' ∉ cs := fun hm => h (by simp [hm])
    unfold splitRNL
    split
    all_goals simp_all [consHead]

theorem join_getLast (ls : List (List Char)) (lst : List Char)
    (hl : ls.getLast? = some lst) (hne : lst ≠ []) :
    (joinNl ls).getLast? = lst.getLast? := by
  induction ls with
  | nil => simp at hl
  | cons l rest ih =>
    cases rest with
    | nil =>
      simp at hl
      subst hl
      rfl
    | cons l2 rest2 =>
      have hl' : (l2 :: rest2).getLast? = some lst := by
        rw [List.getLast?_cons_cons] at hl
        exact hl
      have hjoin_ne : joinNl (l2 :: rest2) ≠ [] := by
        cases rest2 with
        | nil =>
          simp at hl'
          subst hl'
          simpa [joinNl] using hne
        | cons l3 rest3 =>
          show l2 ++ '\n' :: joinNl (l3 :: rest3) ≠ []
          simp
      show (l ++ '\n' :: joinNl (l2 :: rest2)).getLast? = lst.getLast?
      rw [List.getLast?_append]
      have h2 : ('\n' :: joinNl (l2 :: rest2)).getLast? =
          (joinNl (l2 :: rest2)).getLast? := by
        cases hj : joinNl (l2 :: rest2) with
        | nil => exact absurd hj hjoin_ne
        | cons a as => rw [List.getLast?_cons_cons]
      rw [h2, ih hl']
      cases hlast : lst.getLast? with
      | none => exact absurd (List.getLast?_eq_none_iff.1 hlast) hne
      | some c => rfl

/-! ## Sanitizer lemmas — stages -/

theorem see_single (v : List Char) (h : '\n' ∉ v) :
    stripEmptyEdgesC v =
      if blankLine v = true then [] else stripTrailingWsL v := by
  unfold stripEmptyEdgesC stripEmptyEdgesLines
  rw [splitRN_single v h]
  by_cases hb : blankLine v = true
  · simp [hb, joinNl]
  · simp [hb, joinNl]

theorem scf_single (v : List Char) (h : '\n' ∉ v) (hf : isFenceL v = false) :
    stripCodeFencesC v = v := by
  unfold stripCodeFencesC stripCodeFencesLines
  rw [splitRN_single v h]
  simp [hf, joinNl]

theorem soq_noop (t : List Char)
    (hh : ∀ c, t.head? = some c → isQuoteChar c = false)
    (hl : ∀ c, t.getLast? = some c → isQuoteChar c = false) :
    stripOuterQuotesC t = t := by
  unfold stripOuterQuotesC
  rw [dw_noop hh, dw_noop, List.reverse_reverse]
  intro a ha
  rw [List.head?_reverse] at ha
  exact hl a ha

theorem trim_nil : trimL [] = [] := rfl

theorem scf_nil : stripCodeFencesC [] = [] := by decide

theorem jsonStage_nil : jsonStage [] = [] := by decide

theorem soq_nil : stripOuterQuotesC [] = [] := rfl

theorem see_nil : stripEmptyEdgesC [] = [] := by decide

/-- The early `return undefined` exits of `sanitizeCommitMessage` coincide
with the straight-line pipeline producing the empty string: the function
returns exactly the final post-pipeline string, absent when empty. -/
theorem sanitizeCore_eq (raw : List Char) :
    sanitizeCore raw =
      if pipelineC raw = [] then none else some (pipelineC raw) := by
  by_cases h0 : raw = []
  · subst h0
    decide
  · simp only [sanitizeCore, pipelineC, if_neg h0]
    by_cases h1 : stripEmptyEdgesC raw = []
    · rw [h1, if_pos rfl, scf_nil, trim_nil, jsonStage_nil, soq_nil, see_nil,
        if_pos rfl]
    · rw [if_neg h1]
      by_cases h2 : trimL (stripCodeFencesC (stripEmptyEdgesC raw)) = []
      · rw [h2, if_pos rfl, jsonStage_nil, soq_nil, see_nil, if_pos rfl]
      · rw [if_neg h2]

/-- Whatever `stripEmptyEdges` returns ends in a non-whitespace character
(when non-empty): trailing blank lines are popped and every remaining line
loses its trailing whitespace. -/
theorem see_getLast_false (v : List Char) (c : Char)
    (h : (stripEmptyEdgesC v).getLast? = some c) : isWsChar c = false := by
  unfold stripEmptyEdgesC stripEmptyEdgesLines at h
  set B := (((splitRNL v).dropWhile blankLine).reverse.dropWhile blankLine).reverse
    with hBdef
  have hmap : (B.map stripTrailingWsL).getLast? =
      B.getLast?.map stripTrailingWsL := by
    rw [← List.head?_reverse, ← List.map_reverse, List.head?_map,
      List.head?_reverse]
  cases hy : (B.map stripTrailingWsL).getLast? with
  | none =>
    have : B.map stripTrailingWsL = [] := List.getLast?_eq_none_iff.1 hy
    rw [this] at h
    simp [joinNl] at h
  | some y =>
    rw [hmap] at hy
    rcases Option.map_eq_some'.1 hy with ⟨k, hk, hky⟩
    have hkblank : blankLine k = false := by
      have : B.getLast? =
          ((((splitRNL v).dropWhile blankLine).reverse).dropWhile
            blankLine).head? := by
        rw [hBdef, List.getLast?_reverse]
      rw [this] at hk
      exact dw_head_false hk
    have hkne : stripTrailingWsL k ≠ [] := by
      intro hnil
      have := (st_eq_nil_iff k).1 hnil
      rw [show blankLine k = k.all isWsChar from rfl] at hkblank
      rw [List.all_eq_true.2 this] at hkblank
      exact Bool.noConfusion hkblank
    have hlast : (B.map stripTrailingWsL).getLast? =
        some (stripTrailingWsL k) := by
      rw [hmap, hk]
      rfl
    have := join_getLast (B.map stripTrailingWsL) (stripTrailingWsL k)
      hlast hkne
    rw [this] at h
    exact st_getLast_false h

/-! ## Claim C1 -/

/-- Claim C1 (code bug evaluation): the renderer does NOT emit body rows in
the original body order.  On the input `" a\n+b"` the parsed body is the
context line followed by the added line, but `renderDiff` emits the added
row first and appends the context run afterwards: `flushRun` only queues the
pending run on `ctxRuns`, and all context runs are rendered after the body
walk. -/
theorem c1_code_bug_eval :
    parseUnifiedDiff " a\n+b" =
      [⟨[], [⟨.ctx, some 0, some 0, " a"⟩, ⟨.add, none, some 1, "+b"⟩]⟩] ∧
    renderDiff (parseUnifiedDiff " a\n+b") true false =
      [.plain "diff-row added" "" "1" "+b",
       .plain "diff-row context" "" "" " a"] := by decide

/-! ## Claim C2 -/

/-- Claim C2 (counterexample): a document with two `@@` header lines parses
into one hunk, not two — an `@@` line encountered while a hunk is open does
not start a new hunk. -/
theorem c2_counterexample :
    (splitNl "@@ -1,1 +1,1 @@\n a\n@@ -5,1 +5,1 @@\n b").countP
        (fun l => startsWithL l "@@") = 2 ∧
    (parseUnifiedDiff "@@ -1,1 +1,1 @@\n a\n@@ -5,1 +5,1 @@\n b").length = 1 := by
  decide

/-! ## Claim C3 -/

/-- Claim C3 (counterexample): parse applied to the empty string does not
return an empty sequence of hunks. -/
theorem c3_counterexample : parseUnifiedDiff "" ≠ [] := by decide

/-- Claim C3 (amended): parse applied to the empty string returns one hunk
with no meta lines and a single context body line — splitting `""` on
newlines yields `[""]`, and the empty line is classified as a context line
displayed as a single space, numbered `0`/`0`. -/
theorem c3_empty_input :
    parseUnifiedDiff "" = [⟨[], [⟨.ctx, some 0, some 0, " "⟩]⟩] := by decide

/-! ## Claim C5 -/

/-- Claim C5 (counterexample): on an input whose first two lines both start
with three backticks followed by a non-fence line, the fence stage removes
BOTH leading fence lines (its `while` loop keeps dropping), not exactly
one — the second does not remain. -/
theorem c5_counterexample :
    stripCodeFences "```\n```ts\nfeat: x" = "feat: x" ∧
    stripCodeFences "```\n```ts\nfeat: x" ≠ "```ts\nfeat: x" := by decide

/-- Claim C5 (amended): the code-fence stage removes EVERY leading line
whose trim starts with three backticks (and then every trailing one), one
`while` iteration per line: with two leading fence lines followed by a
non-fence line, both leading fences are dropped and the rest is subject
only to the trailing-fence loop. -/
theorem c5_amended (f1 f2 x : List Char) (rest : List (List Char))
    (h1 : isFenceL f1 = true) (h2 : isFenceL f2 = true)
    (hx : isFenceL x = false) :
    stripCodeFencesLines (f1 :: f2 :: x :: rest) =
      ((x :: rest).reverse.dropWhile isFenceL).reverse := by
  simp [stripCodeFencesLines, List.dropWhile_cons, h1, h2, hx]

/-- Witness for `c5_amended` at a concrete input. -/
theorem c5_amended_witness :
    stripCodeFencesLines ["```".data, "```ts".data, "feat: x".data] =
      (["feat: x".data].reverse.dropWhile isFenceL).reverse :=
  c5_amended "```".data "```ts".data "feat: x".data []
    (by decide) (by decide) (by decide)

/-! ## Claim C10 -/

/-- Claim C10 (counterexample): an assigned line number 0 does not happen
exclusively before an `@@` header has matched — the header
`@@ -0,0 +0,0 @@` matches the pattern, resets both counters to 0, and the
following context line is assigned 0/0 after the match. -/
theorem c10_counterexample :
    findHeaderNums "@@ -0,0 +0,0 @@".data = some (0, 0) ∧
    parseUnifiedDiff "@@ -0,0 +0,0 @@\n x" =
      [⟨["@@ -0,0 +0,0 @@"], [⟨.ctx, some 0, some 0, " x"⟩]⟩] := by decide

/-- Claim C10 (amended): a parsed line number equal to 0 is never
displayed — whenever a DiffLine's assigned `oldNo` (resp. `newNo`) is 0,
which happens for numbered body lines before any `@@` header has matched
and also after a matching header whose start value is 0, the rendered row
shows a blank in that number cell, because `String(ln.oldNo || '')` maps
the falsy number 0 to the empty string. -/
theorem c10_zero_is_blank (ln : DiffLine) :
    (ln.oldNo = some 0 → rowOldStr (createRow ln) = "") ∧
    (ln.newNo = some 0 → rowNewStr (createRow ln) = "") := by
  constructor <;> intro h <;> simp [createRow, rowOldStr, rowNewStr, h, fmtNo]

/-- Witness for `c10_zero_is_blank` at the line parsed from the empty
document. -/
theorem c10_zero_is_blank_witness :
    rowOldStr (createRow ⟨.ctx, some 0, some 0, " "⟩) = "" ∧
    rowNewStr (createRow ⟨.ctx, some 0, some 0, " "⟩) = "" :=
  ⟨(c10_zero_is_blank ⟨.ctx, some 0, some 0, " "⟩).1 rfl,
   (c10_zero_is_blank ⟨.ctx, some 0, some 0, " "⟩).2 rfl⟩

/-! ## Claim C4 — counterexample -/

/-- Claim C4 (counterexample): a second matching `@@` header resets the
counters inside the single open hunk, so the old-number sequence of that
hunk is `[5, 1]` — not strictly increasing. -/
theorem c4_counterexample :
    ¬ ∀ h ∈ parseUnifiedDiff "@@ -5,1 +5,1 @@\n a\n@@ -1,1 +1,1 @@\n b",
        List.Pairwise (· < ·) (oldNums h) ∧
        List.Pairwise (· < ·) (newNums h) := by decide

/-! ## Claim C7 -/

/-- Claim C7: flushing a ContextRun of length L emits all L rows verbatim
(and no collapsed row) when collapsing is off or L ≤ 20; with collapsing on
and L > 20 it emits the first 3 rows, one collapsed row carrying count L−6
together with exactly the L−6 hidden middle lines in original order, and
the last 3 rows; expanding the collapsed row renders exactly those hidden
lines. -/
theorem c7_contextRun_collapse (c sN : Bool) (g : List DiffLine)
    (hg : ∀ l ∈ g, l.kind = Kind.ctx) :
    renderDiff [⟨[], g⟩] sN c = flushGroup c g ∧
    ((c = false ∨ g.length ≤ 20) →
      flushGroup c g = g.map createRow ∧
      ∀ r ∈ flushGroup c g, r.isCollapsed = false) ∧
    (c = true → 20 < g.length →
      flushGroup c g =
        (g.take 3).map createRow ++
          Row.collapsed (g.length - 6) ((g.drop 3).take (g.length - 6)) ::
          (g.drop (g.length - 3)).map createRow ∧
      g = g.take 3 ++ (g.drop 3).take (g.length - 6) ++
            g.drop (g.length - 3) ∧
      ((g.drop 3).take (g.length - 6)).length = g.length - 6 ∧
      expandCollapsed (g.length - 6) ((g.drop 3).take (g.length - 6)) =
        ((g.drop 3).take (g.length - 6)).map createRow) := by
  have hb := bodyWalk_all_ctx g [] [] hg
  refine ⟨?_, ?_, ?_⟩
  · by_cases hge : g = []
    · subst hge
      simp [renderDiff, renderHunk, bodyWalk, flushRunState, flushGroup]
    · simp [renderDiff, renderHunk, hb, flushRunState, hge]
  · intro hcase
    have hcond : (c && decide (20 < g.length)) = false := by
      rcases hcase with h | h
      · simp [h]
      · simp [Nat.not_lt.2 h]
    have e : flushGroup c g = g.map createRow := by
      unfold flushGroup
      rw [hcond]
      simp
    refine ⟨e, ?_⟩
    rw [e]
    intro r hr
    rcases List.mem_map.1 hr with ⟨l, -, rfl⟩
    rfl
  · intro hc hlen
    have hcond : (c && decide (20 < g.length)) = true := by simp [hc, hlen]
    have l3 : ((g.drop 3).take (g.length - 6)).length = g.length - 6 := by
      rw [List.length_take, List.length_drop]
      omega
    have hdecomp : g = g.take 3 ++ (g.drop 3).take (g.length - 6) ++
        g.drop (g.length - 3) := by
      have e1 : (g.drop 3).drop (g.length - 6) = g.drop (g.length - 3) := by
        rw [List.drop_drop]
        congr 1
        omega
      calc g = g.take 3 ++ g.drop 3 := (List.take_append_drop 3 g).symm
        _ = g.take 3 ++ ((g.drop 3).take (g.length - 6) ++
              (g.drop 3).drop (g.length - 6)) := by
            rw [List.take_append_drop (g.length - 6) (g.drop 3)]
        _ = _ := by rw [e1, ← List.append_assoc]
    refine ⟨?_, hdecomp, l3, rfl⟩
    unfold flushGroup
    rw [hcond]
    simp only [if_true]
    rw [l3]

/-- Witness for `c7_contextRun_collapse`: a run of 25 context lines with
collapsing on yields 3 head rows, one collapsed row of count 19, 3 tail
rows, and the hidden middle restores the original lines. -/
theorem c7_witness :
    renderDiff [⟨[], g25⟩] true true = flushGroup true g25 ∧
    flushGroup true g25 =
      (g25.take 3).map createRow ++
        Row.collapsed 19 ((g25.drop 3).take 19) ::
        (g25.drop 22).map createRow ∧
    g25 = g25.take 3 ++ (g25.drop 3).take 19 ++ g25.drop 22 := by
  have h := c7_contextRun_collapse true true g25 (by decide)
  have h3 := h.2.2 rfl (by decide)
  have hl : g25.length = 25 := by decide
  refine ⟨h.1, ?_, ?_⟩
  · have e := h3.1
    rw [hl] at e
    simpa using e
  · have e := h3.2.1
    rw [hl] at e
    simpa using e

/-! ## Claim C2 — amended -/

/-- Claim C2 (amended): an `@@` line opens a hunk only when none is open;
`cur` is never closed, so EVERY input — whatever the number N of `@@`
header lines — parses into exactly one hunk, and all N header lines end up
in that hunk's meta list. -/
theorem c2_single_hunk (text : String) :
    (parseUnifiedDiff text).length = 1 ∧
    metaAtCount (parseUnifiedDiff text) =
      (splitNl text).countP (fun l => startsWithL l "@@") := by
  have h := parse_fold_effects (splitNl text) initState (Or.inl ⟨rfl, rfl⟩)
  constructor
  · exact h.2.2.2 (splitNl_ne_nil text)
  · have e := h.2.2.1
    simpa [parseUnifiedDiff, parseLines, initState, metaAtCount] using e

/-! ## Claim C8 -/

/-- Claim C8: parse and render are total.  Every line of any input is
classified into exactly one hunk entry (meta or body), and rendering loses
nothing: the rows of non-meta, non-collapsed kind plus the lines hidden
inside collapsed rows account exactly for the non-meta body lines. -/
theorem c8_total_classification (text : String) (sN c : Bool) :
    entryCount (parseUnifiedDiff text) = (splitNl text).length ∧
    (renderDiff (parseUnifiedDiff text) sN c).countP isCountedRow +
      ((renderDiff (parseUnifiedDiff text) sN c).map hiddenLen).sum =
      bodyNonMetaCount (parseUnifiedDiff text) := by
  constructor
  · have h := parse_fold_effects (splitNl text) initState (Or.inl ⟨rfl, rfl⟩)
    have e := h.2.1
    simpa [parseUnifiedDiff, parseLines, initState, entryCount] using e
  · exact renderDiff_conservation _ sN c

/-! ## Claim C4 — amended -/

/-- Claim C4 (amended): the `oldLineNumber` sequence over a hunk's numbered
`removed`/`context` lines and the `newLineNumber` sequence over its
numbered `added`/`context` lines are strictly increasing, PROVIDED the
counters are never reset after a numbered body line: whenever the split
input decomposes into a prefix with no numbered body lines (it may hold all
the `@@` headers) followed by a suffix with no matching `@@` header, the
sequences are strictly increasing.  (A later matching header resets the
counters and can break whole-hunk monotonicity — see the counterexample.) -/
theorem c4_monotone (text : String) (pre post : List String)
    (hsplit : splitNl text = pre ++ post)
    (hpre : ∀ l ∈ pre, isBodyNumbered l = false)
    (hpost : ∀ l ∈ post, resetsCounters l = false) :
    ∀ h ∈ parseUnifiedDiff text,
      List.Pairwise (· < ·) (oldNums h) ∧
      List.Pairwise (· < ·) (newNums h) := by
  unfold parseUnifiedDiff parseLines
  rw [hsplit, List.foldl_append]
  have hshape0 : shapeInv initState := Or.inl ⟨rfl, rfl⟩
  have hshape1 := (parse_fold_effects pre initState hshape0).1
  have hempty := parse_fold_unnumbered pre initState hshape0 hpre
    (by intro h hh; simp [initState] at hh)
  have hinv : MonoInv (pre.foldl parseStep initState) := by
    intro h hh
    have he := hempty h hh
    rw [he.1, he.2]
    exact ⟨List.Pairwise.nil, by simp, List.Pairwise.nil, by simp⟩
  have hfin := parse_fold_mono post (pre.foldl parseStep initState)
    hshape1 hpost hinv
  intro h hh
  exact ⟨(hfin h hh).1, (hfin h hh).2.2.1⟩

/-- Witness for `c4_monotone`: a single-header diff with interleaved
context, removed and added lines yields old numbers `[3, 4, 5]` and new
numbers `[7, 8, 9]`. -/
theorem c4_monotone_witness :
    List.Pairwise (· < ·)
      (oldNums ⟨["@@ -3,2 +7,2 @@"],
        [⟨.ctx, some 3, some 7, " a"⟩, ⟨.del, some 4, none, "-b"⟩,
         ⟨.add, none, some 8, "+c"⟩, ⟨.ctx, some 5, some 9, " d"⟩]⟩) ∧
    List.Pairwise (· < ·)
      (newNums ⟨["@@ -3,2 +7,2 @@"],
        [⟨.ctx, some 3, some 7, " a"⟩, ⟨.del, some 4, none, "-b"⟩,
         ⟨.add, none, some 8, "+c"⟩, ⟨.ctx, some 5, some 9, " d"⟩]⟩) :=
  c4_monotone "@@ -3,2 +7,2 @@\n a\n-b\n+c\n d"
    ["@@ -3,2 +7,2 @@"] [" a", "-b", "+c", " d"]
    (by decide) (by decide) (by decide) _ (by decide)

/-! ## Claim C6 -/

/-- Claim C6 (counterexample): the returned string is not always trimmed —
stripping the outer quotes can expose leading whitespace that the final
`stripEmptyEdges` (which only removes blank lines and trailing whitespace)
does not remove. -/
theorem c6_counterexample :
    sanitizeCommitMessage "\"  feat: x\"" = some "  feat: x" ∧
    trimStr "  feat: x" ≠ "  feat: x" := by decide

theorem mk_data (x : List Char) : (⟨x⟩ : String).data = x := rfl

set_option maxHeartbeats 1000000 in
/-- Claim C6 (amended): `sanitizeCommitMessage` is a total Option-valued
function that returns absent exactly when the final post-pipeline string is
empty; when it returns a string, that string is the pipeline result, is
non-empty, and ends in a non-whitespace character — but it may retain
LEADING whitespace exposed by the outer-quote stripping stage, so it need
not equal its own trim. -/
theorem c6_sanitize_shape (raw : String) :
    (sanitizeCommitMessage raw = none ↔ pipelineC raw.data = []) ∧
    (∀ s, sanitizeCommitMessage raw = some s →
      s.data = pipelineC raw.data ∧ s ≠ "" ∧
      ∀ c, s.data.getLast? = some c → isWsChar c = false) := by
  have he := sanitizeCore_eq raw.data
  constructor
  · unfold sanitizeCommitMessage
    rw [he]
    by_cases h : pipelineC raw.data = [] <;> simp [h]
  · intro s hs
    unfold sanitizeCommitMessage at hs
    rw [he] at hs
    by_cases h : pipelineC raw.data = []
    · rw [if_pos h] at hs
      simp at hs
    · rw [if_neg h] at hs
      rw [Option.map_some'] at hs
      have hse : s = ⟨pipelineC raw.data⟩ := (Option.some.inj hs).symm
      subst hse
      refine ⟨mk_data _, ?_, ?_⟩
      · intro hempty
        rw [String.ext_iff, mk_data,
          show ("" : String).data = [] from rfl] at hempty
        exact h hempty
      · intro c hc
        rw [mk_data] at hc
        unfold pipelineC at hc
        exact see_getLast_false _ c hc

/-- Witness for `c6_sanitize_shape` at a concrete input. -/
theorem c6_sanitize_shape_witness :
    ("feat: y" : String) ≠ "" ∧ isWsChar 'y' = false := by
  have h := (c6_sanitize_shape "feat: y").2 "feat: y" (by decide)
  exact ⟨h.2.1, h.2.2 'y' (by decide)⟩

/-! ## Claim C9 -/

/-- Claim C9 (counterexample): the round-trip fails for `" 'a' "` even
though the message itself has no code-fence markers, no leading or trailing
quote-like characters (both edges are spaces), and does not begin with a
brace — after trimming, the quotes around `a` become outer quotes and are
stripped, so the result is `"a"`, not the trim `"'a'"`. -/
theorem c9_counterexample :
    (" 'a' " : String).data.head? = some ' ' ∧
    (" 'a' " : String).data.getLast? = some ' ' ∧
    isQuoteChar ' ' = false ∧
    sanitizeCommitMessage " 'a' " = some "a" ∧
    trimStr " 'a' " = "'a'" ∧
    sanitizeCommitMessage " 'a' " ≠ some (trimStr " 'a' ") := by decide

/-- Under the (amended) cleanliness hypotheses the whole pipeline reduces
to a whitespace trim. -/
theorem pipeline_trim (v : List Char)
    (h1 : '\n' ∉ v) (h2 : isFenceL (trimL v) = false)
    (h3 : ∀ c, (trimL v).head? = some c →
      isQuoteChar c = false ∧ c ≠ '\x7b')
    (h4 : ∀ c, (trimL v).getLast? = some c → isQuoteChar c = false) :
    pipelineC v = trimL v := by
  unfold pipelineC
  by_cases hblank : blankLine v = true
  · have htr : trimL v = [] :=
      (trim_eq_nil_iff v).2 (List.all_eq_true.1 hblank)
    rw [see_single v h1, if_pos hblank, scf_nil, trim_nil, jsonStage_nil,
      soq_nil, see_nil, htr]
  · rw [see_single v h1, if_neg hblank]
    have hst_nl : '\n' ∉ stripTrailingWsL v := fun hm => h1 (st_subset hm)
    have hfence : isFenceL (stripTrailingWsL v) = false := by
      show "```".data.isPrefixOf (trimL (stripTrailingWsL v)) = false
      rw [trim_st]
      have h2' : "```".data.isPrefixOf (trimL (trimL v)) = false := h2
      rw [trim_idem] at h2'
      exact h2'
    rw [scf_single _ hst_nl hfence, trim_st]
    have htne : trimL v ≠ [] := by
      rw [Ne, trim_eq_nil_iff]
      intro hall
      exact hblank (List.all_eq_true.2 hall)
    have hjs : jsonStage (trimL v) = trimL v := by
      unfold jsonStage
      have hdw : (trimL v).dropWhile isWsChar = trimL v :=
        dw_noop (fun a ha => trim_head_false ha)
      rw [hdw]
      cases hhd : (trimL v).head? with
      | none => exact absurd (List.head?_eq_none_iff.1 hhd) htne
      | some c =>
        have hc := (h3 c hhd).2
        rw [if_neg (by simp [hc])]
    rw [hjs]
    have hsoq : stripOuterQuotesC (trimL v) = trimL v :=
      soq_noop _ (fun c hc => (h3 c hc).1) (fun c hc => h4 c hc)
    rw [hsoq]
    have ht_nl : '\n' ∉ trimL v := fun hm => h1 (trim_subset hm)
    have htblank : blankLine (trimL v) = false := by
      cases ht : trimL v with
      | nil => exact absurd ht htne
      | cons a as =>
        have hw : isWsChar a = false := by
          have hhd : (trimL v).head? = some a := by
            rw [ht]
            rfl
          exact trim_head_false hhd
        show (a :: as).all isWsChar = false
        simp [hw]
    rw [see_single _ ht_nl, if_neg (by simp [htblank])]
    exact st_noop (fun c hc => trim_getLast_false hc)

/-- Claim C9 (amended): for every single-line message M whose TRIMMED form
neither starts with three backticks nor `{` and has no quote-like first or
last character, `sanitize(M)` returns `M.trim()` (absent exactly when the
trim is empty).  The quote condition must be read on the trimmed message:
whitespace-separated outer quotes are still stripped (see the
counterexample). -/
theorem c9_round_trip (M : String)
    (h1 : '\n' ∉ M.data)
    (h2 : isFenceL (trimL M.data) = false)
    (h3 : ∀ c, (trimL M.data).head? = some c →
      isQuoteChar c = false ∧ c ≠ '\x7b')
    (h4 : ∀ c, (trimL M.data).getLast? = some c → isQuoteChar c = false) :
    sanitizeCommitMessage M =
      if trimL M.data = [] then none else some (trimStr M) := by
  unfold sanitizeCommitMessage
  rw [sanitizeCore_eq, pipeline_trim M.data h1 h2 h3 h4]
  by_cases h : trimL M.data = []
  · rw [if_pos h, if_pos h]
    rfl
  · rw [if_neg h, if_neg h]
    rfl

/-- Witness for `c9_round_trip` at a concrete clean message. -/
theorem c9_round_trip_witness :
    sanitizeCommitMessage "feat: add x" =
      if trimL ("feat: add x" : String).data = [] then none
      else some (trimStr "feat: add x") := by
  refine c9_round_trip "feat: add x" (by decide) (by decide) ?_ ?_
  · intro c hc
    rw [show (trimL ("feat: add x" : String).data).head? = some 'f'
      from by decide] at hc
    injection hc with hc
    subst hc
    exact ⟨by decide, by decide⟩
  · intro c hc
    rw [show (trimL ("feat: add x" : String).data).getLast? = some 'x'
      from by decide] at hc
    injection hc with hc
    subst hc
    decide

end CommitAIFlow
